/-
Verification of the PDF outline extractor (src/main.py) against its
natural-language specification.  The Python source is shallowly embedded:
strings become lists of characters, the PyMuPDF backend ("fitz") and the
unicodedata NFKC normalizer are external collaborators modelled as data
(Document/Page/Block/Span structures) respectively as a function parameter,
and Python exceptions become Except values.
-/
import Mathlib

set_option maxRecDepth 4000

/-- Strings from the Python source are modelled as lists of characters. -/
abbrev Str := List Char

/-- Whitespace predicate modelling both Python str.strip() and the regex
class \s (ASCII whitespace plus NEL and NBSP; the remaining rare Unicode
space characters are omitted from the model). -/
def pyIsSpace (c : Char) : Bool :=
  c = ' ' || c = '\t' || c = '\n' || c = '\x0b' || c = '\x0c' || c = '\r' ||
  c = '\x85' || c = '\xa0'

/-- Decimal digit, modelling the regex class \d on ASCII text. -/
def isDigitChar (c : Char) : Bool :=
  '0' ≤ c && c ≤ '9'

/-- Word character, modelling the regex class \w (and hence the anchor \b)
on ASCII text. -/
def isWordChar (c : Char) : Bool :=
  ('a' ≤ c && c ≤ 'z') || ('A' ≤ c && c ≤ 'Z') || isDigitChar c || c = '_'

/-- Python str.strip(): drop whitespace from both ends. -/
def pyStrip (l : Str) : Str :=
  (l.dropWhile pyIsSpace).rdropWhile pyIsSpace

theorem length_dropWhileLe {α : Type} (p : α → Bool) :
    ∀ l : List α, (l.dropWhile p).length ≤ l.length := by
  intro l
  induction l with
  | nil => simp [List.dropWhile]
  | cons c cs ih =>
    by_cases h : p c
    · simpa [List.dropWhile, h] using Nat.le_succ_of_le ih
    · simp [List.dropWhile, h]

/-- Python re.sub(r'\s+', ' ', text): every maximal run of whitespace is
replaced by a single space. -/
def subWs : Str → Str
  | [] => []
  | c :: cs =>
    if pyIsSpace c then ' ' :: subWs (cs.dropWhile pyIsSpace)
    else c :: subWs cs
termination_by l => l.length
decreasing_by
  · simp only [List.length_cons]
    exact Nat.lt_succ_of_le (length_dropWhileLe pyIsSpace cs)
  · simp

/-- The ligature characters replaced by clean_text. -/
def ligFi : Char := 'ﬁ'

def ligFl : Char := 'ﬂ'

/-- Expansion of a single character under the two ligature replacements
text.replace("ﬁ", "fi").replace("ﬂ", "fl") of clean_text. -/
def expandLig (c : Char) : Str :=
  if c = ligFi then ['f', 'i'] else if c = ligFl then ['f', 'l'] else [c]

/-- The two single-character str.replace calls of clean_text, fused into one
character-wise expansion (the needles are single characters, and neither
replacement can create a new occurrence of either needle). -/
def replaceLigs (l : Str) : Str :=
  l.flatMap expandLig

/-- clean_text from src/main.py, parametrized by the external NFKC
normalizer (unicodedata.normalize): guard the empty string, normalize,
replace the two ligatures, strip, then collapse whitespace runs. -/
def cleanText (nfkc : Str → Str) (s : Str) : Str :=
  if s = [] then []
  else subWs (pyStrip (replaceLigs (nfkc s)))

/-- Number of words of Python str.split(): the count of maximal runs of
non-whitespace characters. -/
def wordCount (l : Str) : ℕ :=
  (l.foldl
    (fun st c =>
      if pyIsSpace c then (false, st.2)
      else (true, if st.1 then st.2 else st.2 + 1))
    ((false, 0) : Bool × ℕ)).2

/-- Python prefix test used to build the substring test. -/
def isPrefixCh : Str → Str → Bool
  | [], _ => true
  | _ :: _, [] => false
  | p :: ps, c :: cs => p = c && isPrefixCh ps cs

/-- Python substring containment (the "in" operator on strings). -/
def strContains (hay needle : Str) : Bool :=
  isPrefixCh needle hay ||
    match hay with
    | [] => false
    | _ :: r => strContains r needle

/-- Removal of a literal prefix, used to model anchored literal regex parts. -/
def dropPrefixCh : Str → Str → Option Str
  | [], t => some t
  | _ :: _, [] => none
  | p :: ps, c :: cs => if p = c then dropPrefixCh ps cs else none

/-- Python " ".join(parts). -/
def strJoin (sep : Str) (parts : List Str) : Str :=
  match parts with
  | [] => []
  | p :: ps => p ++ (ps.flatMap (fun q => sep ++ q))

/-- Python round() on a rational: round half to even. -/
def pyRound (q : ℚ) : ℤ :=
  let f : ℤ := ⌊q⌋
  let r : ℚ := q - f
  if r < 1/2 then f
  else if 1/2 < r then f + 1
  else if f % 2 = 0 then f else f + 1

/-- Python max() over a list of rationals (the guard sites always pass a
nonempty list; 0 is returned for the impossible empty case). -/
def maxQ : List ℚ → ℚ
  | [] => 0
  | x :: xs => xs.foldl max x

/-- Python str.isupper(): at least one cased character and no lowercase
cased character (ASCII model). -/
def pyIsUpper (l : Str) : Bool :=
  l.any (fun c => 'A' ≤ c && c ≤ 'Z') && l.all (fun c => !('a' ≤ c && c ≤ 'z'))

/-- Python str.isdigit() (ASCII model): nonempty and all digits. -/
def pyIsDigitStr (l : Str) : Bool :=
  !l.isEmpty && l.all isDigitChar

/-- Python str.lower() (ASCII model). -/
def toLowerStr (l : Str) : Str :=
  l.map Char.toLower

/-
Data model of the decoding backend (PyMuPDF / fitz), the external
collaborator that yields pages, blocks, lines and spans.  Bounding boxes
are (x0, y0, x1, y1) quadruples of rationals.
-/

/-- A text span: the fragment text, its font size and its font name. -/
structure Span where
  text : Str
  size : ℚ
  font : Str
deriving DecidableEq, Repr

/-- A line of spans. -/
structure Line where
  spans : List Span
deriving DecidableEq, Repr

/-- A layout block: type tag (0 = text), bounding box and lines. -/
structure Block where
  btype : ℕ
  bbox : ℚ × ℚ × ℚ × ℚ
  lines : List Line
deriving DecidableEq, Repr

/-- A page: dimensions, layout blocks, the plain-text rendering used by the
strategy selector, and the word tokens of get_text("words"). -/
structure Page where
  width : ℚ
  height : ℚ
  blocks : List Block
  text : Str
  words : List Str
deriving DecidableEq, Repr

/-- An embedded table-of-contents entry (level, title, 0-based page). -/
structure TocEntry where
  level : ℕ
  title : Str
  page : ℕ
deriving DecidableEq, Repr

/-- A document: its pages and its embedded table of contents. -/
structure Document where
  pages : List Page
  toc : List TocEntry
deriving DecidableEq, Repr

/-- A heading candidate produced by the scoring passes. -/
structure Heading where
  text : Str
  page : ℕ
  style : ℤ × Bool
  bbox : ℚ × ℚ × ℚ × ℚ
deriving DecidableEq, Repr

/-- A finalized outline item; the Python source stores the level as the
string "H1"/"H2"/"H3" and parses the digit back, which is modelled by the
bare numeric level. -/
structure OutlineItem where
  level : ℕ
  text : Str
  page : ℕ
deriving DecidableEq, Repr

/-- The extraction result: title and outline. -/
structure ExtractionResult where
  title : Str
  outline : List OutlineItem
deriving DecidableEq, Repr

/-- Accessor for the y0 coordinate (bbox[1]) of a block or heading box. -/
def boxY0 (b : ℚ × ℚ × ℚ × ℚ) : ℚ := b.2.1

/-- Accessor for the y1 coordinate (bbox[3]). -/
def boxY1 (b : ℚ × ℚ × ℚ × ℚ) : ℚ := b.2.2.2

/-- Accessor for the x0 coordinate (bbox[0]). -/
def boxX0 (b : ℚ × ℚ × ℚ × ℚ) : ℚ := b.1

/-- Accessor for the x1 coordinate (bbox[2]). -/
def boxX1 (b : ℚ × ℚ × ℚ × ℚ) : ℚ := b.2.2.1

/-
Regex models.  Each model implements one concrete pattern of the source
with its Python matching semantics (greedy repetition with the relevant
backtracking behaviour resolved statically, as justified in the comments).
-/

/-- Model of re.match(r'^(\d+(\.\d+)*)', text): the greedy leading
numbering prefix, or none when the text does not start with a digit.
The sub-match consumed after the digits: maximal repetitions of a dot
followed by at least one digit. -/
def numTail : Str → Str
  | '.' :: r =>
    let d := r.takeWhile isDigitChar
    if d = [] then []
    else '.' :: d ++ numTail (r.dropWhile isDigitChar)
  | _ => []
termination_by l => l.length
decreasing_by
  simp only [List.length_cons]
  exact Nat.lt_succ_of_le (length_dropWhileLe isDigitChar r)

/-- Leading numbering group of re.match(r'^(\d+(\.\d+)*)', text). -/
def leadingNumber (l : Str) : Option Str :=
  let d := l.takeWhile isDigitChar
  if d = [] then none else some (d ++ numTail (l.dropWhile isDigitChar))

/-- First alternative of the heading-numbering pattern
^((\d+(\.\d+)*)|...)\b: it succeeds exactly when the text starts with a
digit and the character after the maximal leading digit run (if any) is a
non-word character; the regex can always cut the optional dotted groups at
a position satisfying the word boundary in that case. -/
def altDigits (t : Str) : Bool :=
  !(t.takeWhile isDigitChar).isEmpty &&
    (match (t.dropWhile isDigitChar).head? with
     | none => true
     | some c => !isWordChar c)

/-- Second alternative Appendix\s+[A-Z] followed by the word boundary:
the literal word, at least one whitespace character, one capital letter,
and then end of text or a non-word character. -/
def altAppendix (t : Str) : Bool :=
  match dropPrefixCh ("Appendix".toList) t with
  | none => false
  | some r =>
    !(r.takeWhile pyIsSpace).isEmpty &&
      (match r.dropWhile pyIsSpace with
       | c :: rest =>
         ('A' ≤ c && c ≤ 'Z') &&
           (match rest.head? with
            | none => true
            | some d => !isWordChar d)
       | [] => false)

/-- Roman-numeral character class [IVXLCDM]. -/
def isRomanChar (c : Char) : Bool :=
  c = 'I' || c = 'V' || c = 'X' || c = 'L' || c = 'C' || c = 'D' || c = 'M'

/-- Third alternative [IVXLCDM]+\. followed by the word boundary: since the
dot is a non-word character, the boundary after it demands a word
character immediately after the dot. -/
def altRoman (t : Str) : Bool :=
  !(t.takeWhile isRomanChar).isEmpty &&
    (match t.dropWhile isRomanChar with
     | '.' :: d :: _ => isWordChar d
     | _ => false)

/-- Model of re.match(r'^((\d+(\.\d+)*)|(Appendix\s+[A-Z])|([IVXLCDM]+\.))\b', text)
viewed as a Boolean test (only existence of a match is used by the score). -/
def numberingMatch (t : Str) : Bool :=
  altDigits t || altAppendix t || altRoman t

/-- Tail of the leader pattern r'\s+\.{2,}\s*\d+' after the dots: optional
whitespace then a nonempty digit run, both maximal; acc accumulates the
length consumed so far. -/
def leaderAfterDots (acc : ℕ) (l2 : Str) : Option ℕ :=
  match ((l2.drop (l2.takeWhile pyIsSpace).length).takeWhile isDigitChar).length with
  | 0 => none
  | g + 1 => some (acc + (l2.takeWhile pyIsSpace).length + g + 1)

/-- Dots part of the leader pattern: at least two dots, maximal. -/
def leaderDots (acc : ℕ) (l1 : Str) : Option ℕ :=
  if (l1.takeWhile (fun c => c = '.')).length < 2 then none
  else
    leaderAfterDots (acc + (l1.takeWhile (fun c => c = '.')).length)
      (l1.drop (l1.takeWhile (fun c => c = '.')).length)

/-- Length of the match of re.compile(r'\s+\.{2,}\s*\d+') anchored at the
head of the list, if any: whitespace run, at least two dots, optional
whitespace, digit run (each maximal; no backtracking can rescue a failed
greedy attempt for this pattern). -/
def matchLeaderLen (l : Str) : Option ℕ :=
  match (l.takeWhile pyIsSpace).length with
  | 0 => none
  | w + 1 => leaderDots (w + 1) (l.drop (w + 1))

theorem leaderAfterDots_le {acc : ℕ} {l2 : Str} {n : ℕ}
    (h : leaderAfterDots acc l2 = some n) : acc ≤ n := by
  unfold leaderAfterDots at h
  split at h
  · exact absurd h (by simp)
  · injection h with h
    omega

theorem leaderDots_le {acc : ℕ} {l1 : Str} {n : ℕ}
    (h : leaderDots acc l1 = some n) : acc ≤ n := by
  unfold leaderDots at h
  split at h
  · exact absurd h (by simp)
  · exact le_trans (Nat.le_add_right _ _) (leaderAfterDots_le h)

theorem matchLeaderLen_pos {l : Str} {n : ℕ} (h : matchLeaderLen l = some n) :
    0 < n := by
  unfold matchLeaderLen at h
  split at h
  · exact absurd h (by simp)
  · have := leaderDots_le h
    omega

/-- Model of re.sub(r'\s+\.{2,}\s*\d+', '', title): scan left to right,
removing every leftmost non-overlapping match. -/
def pySubLeader : Str → Str
  | [] => []
  | c :: cs =>
    match h : matchLeaderLen (c :: cs) with
    | some n => pySubLeader ((c :: cs).drop n)
    | none => c :: pySubLeader cs
termination_by l => l.length
decreasing_by
  · have hp := matchLeaderLen_pos h
    have := length_dropWhileLe pyIsSpace (c :: cs)
    simp only [List.length_drop, List.length_cons]
    omega
  · simp

/-- Greedy consumption of (\.\d+)+ starting at the list head: returns the
text of the capturing group (\.\d+), which Python binds to its last
repetition, together with the remainder.  Returning fewer repetitions can
never rescue the following \s (the next character would be a dot), so the
greedy maximal parse is faithful. -/
def nestedReps : Str → Option (Str × Str)
  | '.' :: r =>
    match (r.takeWhile isDigitChar).length with
    | 0 => none
    | _ + 1 =>
      match nestedReps (r.drop (r.takeWhile isDigitChar).length) with
      | some (g, rem) => some (g, rem)
      | none => some ('.' :: r.takeWhile isDigitChar, r.drop (r.takeWhile isDigitChar).length)
  | _ => none
termination_by l => l.length
decreasing_by
  simp only [List.length_cons, List.length_drop]
  exact Nat.lt_succ_of_le (Nat.sub_le _ _)

/-- Lookahead (?=\d+(\.\d+)+\s) of TOCStrategy at the current position:
a digit run, at least one dotted digit group, then a whitespace character;
on success returns the text captured by the group (\.\d+). -/
def nestedLookaheadAt (l : Str) : Option Str :=
  if (l.takeWhile isDigitChar).isEmpty then none
  else
    match nestedReps (l.dropWhile isDigitChar) with
    | some (g, rem) =>
      match rem.head? with
      | some c => if pyIsSpace c then some g else none
      | none => none
    | none => none

/-- Scanner of re.split(r'(?=\d+(\.\d+)+\s)', s): at every position where
the zero-width lookahead matches, the pending segment is emitted followed
by the text of the capturing group (Python re.split interleaves the text
of every capturing group, including groups inside a lookahead), and a new
segment starts; scanning resumes at the next character. -/
def splitNestedAux : Str → Str → List Str
  | [], acc => [acc.reverse]
  | c :: rest, acc =>
    match nestedLookaheadAt (c :: rest) with
    | some g => acc.reverse :: g :: splitNestedAux rest [c]
    | none => splitNestedAux rest (c :: acc)

/-- Model of re.split(r'(?=\d+(\.\d+)+\s)', s). -/
def pySplitNested (s : Str) : List Str :=
  splitNestedAux s []

/-- Boundary test before a word-character needle: true at the start of the
text or after a non-word character. -/
def wbBefore : Option Char → Bool
  | none => true
  | some p => !isWordChar p

/-- Search of a case-insensitive \b(title|abstract)\b over already-lowered
text, scanning with the previous character for the left boundary. -/
def wbSearchAux (w1 w2 : Str) (prev : Option Char) : Str → Bool
  | [] => false
  | c :: rest =>
    (wbBefore prev &&
      ((match dropPrefixCh w1 (c :: rest) with
        | some rem =>
          (match rem.head? with
           | none => true
           | some d => !isWordChar d)
        | none => false) ||
       (match dropPrefixCh w2 (c :: rest) with
        | some rem =>
          (match rem.head? with
           | none => true
           | some d => !isWordChar d)
        | none => false))) ||
    wbSearchAux w1 w2 (some c) rest

/-- Model of re.search(r'\b(title|abstract)\b', text, re.IGNORECASE). -/
def titleAbstractSearch (t : Str) : Bool :=
  wbSearchAux ("title".toList) ("abstract".toList) none (toLowerStr t)

/-- Model of the VisualLayoutStrategy noise search
re.search(r':|\/|www\.|\.com|address|required|waiver|parents|regular pathway', t, re.IGNORECASE):
containment of any alternative in the lowered text. -/
def noiseMatch (t : Str) : Bool :=
  strContains (toLowerStr t) (":".toList) ||
  strContains (toLowerStr t) ("/".toList) ||
  strContains (toLowerStr t) ("www.".toList) ||
  strContains (toLowerStr t) (".com".toList) ||
  strContains (toLowerStr t) ("address".toList) ||
  strContains (toLowerStr t) ("required".toList) ||
  strContains (toLowerStr t) ("waiver".toList) ||
  strContains (toLowerStr t) ("parents".toList) ||
  strContains (toLowerStr t) ("regular pathway".toList)

/-- Attempt of the pattern ([A-Z\s]+!) at the current position: the class
run must be maximal (its characters can never equal the following '!'),
so the match succeeds exactly when the maximal run is nonempty and the
next character is '!'. -/
def ctaAt (l : Str) : Option Str :=
  match (l.takeWhile (fun c => ('A' ≤ c && c ≤ 'Z') || pyIsSpace c)).length with
  | 0 => none
  | k + 1 =>
    match (l.drop (k + 1)).head? with
    | some '!' => some (l.takeWhile (fun c => ('A' ≤ c && c ≤ 'Z') || pyIsSpace c) ++ ['!'])
    | _ => none

/-- Model of re.search(r'([A-Z\s]+!)', t): the leftmost match. -/
def ctaSearch : Str → Option Str
  | [] => none
  | c :: rest =>
    match ctaAt (c :: rest) with
    | some g => some g
    | none => ctaSearch rest

/-
OutlineStructurer: BaseStrategy._structure_headings and
BaseStrategy._post_process_outline from src/main.py.
-/

/-- Sort key order of headings.sort(key=lambda h: (h['page'], h['bbox'][1])):
lexicographic on (page, y0), non-strict so that insertion keeps the stable
(Timsort) order of equal keys. -/
def hKeyLe (a b : Heading) : Bool :=
  a.page < b.page || (a.page = b.page && decide (boxY0 a.bbox ≤ boxY0 b.bbox))

/-- Stable insertion for the heading sort: a new element is placed before
the first existing element with a strictly larger-or-equal key seen from
the left; folding from the right reproduces the stable sort. -/
def insertHeading (a : Heading) : List Heading → List Heading
  | [] => [a]
  | b :: l => if hKeyLe a b then a :: b :: l else b :: insertHeading a l

/-- Stable sort of headings by (page, y0), modelling list.sort. -/
def sortHeadings (l : List Heading) : List Heading :=
  l.foldr insertHeading []

/-- Strict descending order on styles used by
sorted(..., key=lambda x: (x[0], x[1]), reverse=True); Python compares the
bold flag as False < True. -/
def styleGt (a b : ℤ × Bool) : Bool :=
  b.1 < a.1 || (b.1 = a.1 && (a.2 && !b.2))

/-- Insertion into a descending style list. -/
def insertStyleDesc (a : ℤ × Bool) : List (ℤ × Bool) → List (ℤ × Bool)
  | [] => [a]
  | b :: l => if styleGt a b then a :: b :: l else b :: insertStyleDesc a l

/-- Model of sorted(list({h['style'] for h in headings}), ..., reverse=True):
the distinct styles in descending (size, bold) order; the sort key is the
element itself, so the iteration order of the Python set is immaterial. -/
def sortedStyles (hs : List Heading) : List (ℤ × Bool) :=
  ((hs.map Heading.style).dedup).foldr insertStyleDesc []

/-- First index of a style in the rank table, none when absent
(the ValueError branch of the source). -/
def styleIndex (st : ℤ × Bool) : List (ℤ × Bool) → Option ℕ
  | [] => none
  | s :: l => if s = st then some 0 else (styleIndex st l).map (· + 1)

/-- Level assignment of _structure_headings: dotted-numbering prefix wins,
otherwise the style rank, both clamped to 3; a style missing from the rank
table falls back to level 3. -/
def headingLevel (styles : List (ℤ × Bool)) (h : Heading) : ℕ :=
  match leadingNumber h.text with
  | some pre => min (pre.count '.' + 1) 3
  | none =>
    match styleIndex h.style styles with
    | some r => min (r + 1) 3
    | none => 3

/-- Deduplication loop of _structure_headings: keep the first occurrence of
every (text, page) pair, tracked by the seen set. -/
def dedupItems : List OutlineItem → List (Str × ℕ) → List OutlineItem
  | [], _ => []
  | x :: xs, seen =>
    if (x.text, x.page) ∈ seen then dedupItems xs seen
    else x :: dedupItems xs ((x.text, x.page) :: seen)

/-- Walk of _post_process_outline after the first item: last is the level
of the previously retained item; a level exceeding last + 1 is clamped
down to last + 1. -/
def postProcessAux (last : ℕ) : List OutlineItem → List OutlineItem
  | [] => []
  | x :: xs =>
    let lv := if x.level > last + 1 then last + 1 else x.level
    { x with level := lv } :: postProcessAux lv xs

/-- BaseStrategy._post_process_outline: the first item is kept as is, every
later item is clamped to at most one level below the previous retained
item. -/
def postProcessOutline : List OutlineItem → List OutlineItem
  | [] => []
  | x :: xs => x :: postProcessAux x.level xs

/-- BaseStrategy._structure_headings: sort by (page, y0), assign levels,
deduplicate by (text, page), then correct the hierarchy. -/
def structureHeadings (headings : List Heading) : List OutlineItem :=
  if headings.isEmpty then []
  else
    let sorted := sortHeadings headings
    let styles := sortedStyles sorted
    let outline := sorted.map
      (fun h => OutlineItem.mk (headingLevel styles h) h.text (h.page + 1))
    postProcessOutline (dedupItems outline [])

/-
TOCStrategy._process_toc from src/main.py.
-/

/-- Body of the TOC entry loop: entries above level 3 are dropped, the
dot-leader pattern is removed, the text cleaned, short or purely numeric
entries dropped, and the remaining text run through the lookahead split;
every segment with nonempty strip becomes an item at the entry level. -/
def processTocEntry (nfkc : Str → Str) (e : TocEntry) : List OutlineItem :=
  if e.level ≤ 3 then
    let cleaned := cleanText nfkc (pySubLeader e.title)
    if cleaned.length > 2 && !pyIsDigitStr cleaned then
      (pySplitNested cleaned).filterMap
        (fun sub =>
          if pyStrip sub ≠ [] then
            some (OutlineItem.mk e.level (pyStrip sub) (e.page + 1))
          else none)
    else []
  else []

/-- TOCStrategy._process_toc: the flat item list of all entries, passed
through the hierarchy correction only. -/
def processToc (nfkc : Str → Str) (toc : List TocEntry) : List OutlineItem :=
  postProcessOutline (toc.flatMap (processTocEntry nfkc))

/-
Title extraction.  TOCStrategy._extract_title (src/main.py lines 93-127)
and HeuristicStrategy._extract_title (lines 170-204) are transcribed
separately; the refinement claim compares them.
-/

/-- Joined span text of one block, " ".join over all spans of all lines. -/
def blockJoined (b : Block) : Str :=
  strJoin (" ".toList) ((b.lines.flatMap Line.spans).map Span.text)

/-- Horizontal-centering test shared by the title fallback and the visual
strategy: the block center within a quarter page width of true center. -/
def isCentered (pageWidth : ℚ) (bbox : ℚ × ℚ × ℚ × ℚ) : Bool :=
  decide (|(boxX0 bbox + boxX1 bbox) / 2 - pageWidth / 2| < pageWidth * 0.25)

/-- TOCStrategy._extract_title: top-60% text blocks of the first page;
primary pass on the largest rounded font size, then the centered-block
fallback, then the title/abstract keyword fallback. -/
def tocExtractTitle (nfkc : Str → Str) (doc : Document) : Str :=
  match doc.pages with
  | [] => []
  | page :: _ =>
    let blocks := page.blocks.filter
      (fun b => b.btype = 0 && decide (boxY1 b.bbox < page.height * 0.6))
    if blocks.isEmpty then []
    else
      let spans := (blocks.flatMap (fun b => b.lines.flatMap Line.spans)).filter
        (fun s => !(pyStrip s.text).isEmpty)
      let primary : Option Str :=
        if spans.isEmpty then none
        else
          let topSize := maxQ (spans.map Span.size)
          let cands := spans.filter (fun s => pyRound s.size ≥ pyRound (topSize * 0.9))
          if cands.isEmpty then none
          else
            some (cleanText nfkc
              (strJoin (" ".toList)
                ((cands.filter (fun s => pyRound s.size = pyRound topSize)).map Span.text)))
      match primary with
      | some t => t
      | none =>
        let fb1 := blocks.findSome?
          (fun b =>
            if isCentered page.width b.bbox then
              let t := cleanText nfkc (blockJoined b)
              if !t.isEmpty && wordCount t < 20 then some t else none
            else none)
        match fb1 with
        | some t => t
        | none =>
          let fb2 := blocks.findSome?
            (fun b =>
              let t := cleanText nfkc (blockJoined b)
              if titleAbstractSearch t then some t else none)
          match fb2 with
          | some t => t
          | none => []

/-- HeuristicStrategy._extract_title: textually the same fallback chain as
TOCStrategy._extract_title, transcribed from its own source lines. -/
def heurExtractTitle (nfkc : Str → Str) (doc : Document) : Str :=
  match doc.pages with
  | [] => []
  | page :: _ =>
    let blocks := page.blocks.filter
      (fun b => b.btype = 0 && decide (boxY1 b.bbox < page.height * 0.6))
    if blocks.isEmpty then []
    else
      let spans := (blocks.flatMap (fun b => b.lines.flatMap Line.spans)).filter
        (fun s => !(pyStrip s.text).isEmpty)
      let primary : Option Str :=
        if spans.isEmpty then none
        else
          let topSize := maxQ (spans.map Span.size)
          let cands := spans.filter (fun s => pyRound s.size ≥ pyRound (topSize * 0.9))
          if cands.isEmpty then none
          else
            some (cleanText nfkc
              (strJoin (" ".toList)
                ((cands.filter (fun s => pyRound s.size = pyRound topSize)).map Span.text)))
      match primary with
      | some t => t
      | none =>
        let fb1 := blocks.findSome?
          (fun b =>
            if isCentered page.width b.bbox then
              let t := cleanText nfkc (blockJoined b)
              if !t.isEmpty && wordCount t < 20 then some t else none
            else none)
        match fb1 with
        | some t => t
        | none =>
          let fb2 := blocks.findSome?
            (fun b =>
              let t := cleanText nfkc (blockJoined b)
              if titleAbstractSearch t then some t else none)
          match fb2 with
          | some t => t
          | none => []

/-
FontStatistics: HeuristicStrategy._analyze_font_stats and
_get_dominant_font_size.
-/

/-- One Counter update counts[key] += amount keeping first-insertion order. -/
def tallyAdd (key : ℤ) (amount : ℕ) : List (ℤ × ℕ) → List (ℤ × ℕ)
  | [] => [(key, amount)]
  | (k, v) :: rest =>
    if k = key then (k, v + amount) :: rest else (k, v) :: tallyAdd key amount rest

/-- HeuristicStrategy._analyze_font_stats: for every nonempty span, the
stripped character count is added under the rounded size, iterating pages,
blocks, lines and spans in document order. -/
def analyzeFontStats (doc : Document) : List (ℤ × ℕ) :=
  doc.pages.foldl
    (fun acc page =>
      (page.blocks.filter (fun b => b.btype = 0)).foldl
        (fun acc b =>
          (b.lines.flatMap Line.spans).foldl
            (fun acc s =>
              if !(pyStrip s.text).isEmpty then
                tallyAdd (pyRound s.size) (pyStrip s.text).length acc
              else acc)
            acc)
        acc)
    []

/-- Scan keeping the first entry attaining the maximal count. -/
def bestTally : ℤ × ℕ → List (ℤ × ℕ) → ℤ × ℕ
  | cur, [] => cur
  | cur, (k, v) :: rest => bestTally (if v > cur.2 then (k, v) else cur) rest

/-- Counter.most_common(1) of the font tally: the first key attaining the
maximal count, in insertion order (heapq.nlargest keeps the earlier entry
on ties). -/
def mostCommonKey : List (ℤ × ℕ) → Option ℤ
  | [] => none
  | (k, v) :: rest => some (bestTally (k, v) rest).1

/-- HeuristicStrategy._get_dominant_font_size: the modal rounded size, or
10 for a document without measurable text. -/
def dominantFontSize (doc : Document) : ℤ :=
  match mostCommonKey (analyzeFontStats doc) with
  | none => 10
  | some k => k

/-
HeuristicStrategy._find_headings and extract; FormStrategy.extract.
Python exceptions are modelled by Except: the unguarded read
b['lines'][0]['spans'][0] raises IndexError when the first line of a
surviving block has no spans.
-/

/-- Runtime failure kinds of the extraction passes. -/
inductive RunErr where
  | indexError
deriving DecidableEq, Repr

/-- The unguarded first span b['lines'][0]['spans'][0]. -/
def firstSpan (b : Block) : Option Span :=
  match b.lines with
  | [] => none
  | l :: _ => l.spans.head?

/-- Bold test "bold" in first_span['font'].lower(). -/
def isBoldFont (font : Str) : Bool :=
  strContains (toLowerStr font) ("bold".toList)

/-- Additive score of one block in HeuristicStrategy._find_headings, from
the rounded first-span size, the bold flag and the cleaned block text. -/
def hScore (bodySize : ℤ) (size : ℤ) (isBold : Bool) (t : Str) : ℤ :=
  (if size > bodySize then (size - bodySize) * 5 else 0)
  + (if isBold then 10 else 0)
  + (if wordCount t < 12 then 10 else 0)
  + (if !(t.getLast? = some '.' || t.getLast? = some ':' || t.getLast? = some ';')
     then 5 else 0)
  + (if numberingMatch t then 30 else 0)
  - (if wordCount t > 25 || (t.drop 1 |>.dropLast).contains '.' && t.length > 30
     then 20 else 0)

/-- Block loop of _find_headings on one page: non-text and line-less blocks
are skipped, then empty cleaned text, then the top/bottom 50-unit margin
band; the surviving block reads its first span (IndexError when absent)
and is kept as a candidate when the score reaches 25. -/
def scanHeurBlocks (nfkc : Str → Str) (bodySize : ℤ) (pageHeight : ℚ)
    (pageNum : ℕ) : List Block → Except RunErr (List Heading)
  | [] => .ok []
  | b :: bs =>
    if b.btype ≠ 0 || b.lines.isEmpty then
      scanHeurBlocks nfkc bodySize pageHeight pageNum bs
    else
      let t := cleanText nfkc (blockJoined b)
      if t.isEmpty then scanHeurBlocks nfkc bodySize pageHeight pageNum bs
      else if boxY0 b.bbox < 50 || boxY1 b.bbox > pageHeight - 50 then
        scanHeurBlocks nfkc bodySize pageHeight pageNum bs
      else
        match firstSpan b with
        | none => .error .indexError
        | some fs =>
          let size := pyRound fs.size
          let bold := isBoldFont fs.font
          match scanHeurBlocks nfkc bodySize pageHeight pageNum bs with
          | .error e => .error e
          | .ok rest =>
            .ok (if hScore bodySize size bold t ≥ 25 then
                   Heading.mk t pageNum (size, bold) b.bbox :: rest
                 else rest)

/-- Page loop of HeuristicStrategy._find_headings. -/
def heurFindPages (nfkc : Str → Str) (bodySize : ℤ) :
    ℕ → List Page → Except RunErr (List Heading)
  | _, [] => .ok []
  | n, p :: ps =>
    match scanHeurBlocks nfkc bodySize p.height n p.blocks with
    | .error e => .error e
    | .ok hs =>
      match heurFindPages nfkc bodySize (n + 1) ps with
      | .error e => .error e
      | .ok rest => .ok (hs ++ rest)

/-- HeuristicStrategy._find_headings over the whole document, using the
dominant font size computed in the constructor. -/
def heurFindHeadings (nfkc : Str → Str) (doc : Document) :
    Except RunErr (List Heading) :=
  heurFindPages nfkc (dominantFontSize doc) 0 doc.pages

/-- HeuristicStrategy.extract: title, headings, structured outline. -/
def heurExtract (nfkc : Str → Str) (doc : Document) :
    Except RunErr ExtractionResult :=
  let title := heurExtractTitle nfkc doc
  match heurFindHeadings nfkc doc with
  | .error e => .error e
  | .ok hs => .ok (ExtractionResult.mk title (structureHeadings hs))

/-- FormStrategy.extract: the inherited heuristic title and no outline. -/
def formExtract (nfkc : Str → Str) (doc : Document) : ExtractionResult :=
  ExtractionResult.mk (heurExtractTitle nfkc doc) []

/-- TOCStrategy.extract. -/
def tocExtract (nfkc : Str → Str) (doc : Document) : ExtractionResult :=
  ExtractionResult.mk (tocExtractTitle nfkc doc) (processToc nfkc doc.toc)

/-
VisualLayoutStrategy.extract.
-/

/-- Stable insertion for sorted(blocks, key=lambda b: b['bbox'][1]). -/
def insertBlockY (a : Block) : List Block → List Block
  | [] => [a]
  | b :: l =>
    if decide (boxY0 a.bbox ≤ boxY0 b.bbox) then a :: b :: l
    else b :: insertBlockY a l

/-- Stable sort of the page blocks by y0. -/
def sortBlocksByY (l : List Block) : List Block :=
  l.foldr insertBlockY []

/-- Score of one block in VisualLayoutStrategy.extract, from the page
width, the vertical gaps to the neighbouring blocks in the sorted order
(100 at the page edges), the rounded first-span size and the cleaned
text. -/
def vScore (bodySize : ℤ) (pageWidth : ℚ) (bbox : ℚ × ℚ × ℚ × ℚ)
    (prevB nextB : Option Block) (size : ℤ) (t : Str) : ℤ :=
  let spaceAbove : ℚ := match prevB with
    | some p => boxY0 bbox - boxY1 p.bbox
    | none => 100
  let spaceBelow : ℚ := match nextB with
    | some nb => boxY0 nb.bbox - boxY1 bbox
    | none => 100
  (if spaceAbove > 10 then 25 else 0)
  + (if isCentered pageWidth bbox then 20 else 0)
  + (if size > bodySize + 1 then (size - bodySize) * 5 else 0)
  + (if wordCount t < 6 then 10 else 0)
  + (if pyIsUpper t && wordCount t > 1 then 15 else 0)
  - (if spaceBelow < 8 then 25 else 0)
  - (if wordCount t > 10 || t.dropLast.contains '.' then 25 else 0)
  - (if noiseMatch t then 20 else 0)
  + (if t.contains '!' && wordCount t < 6 then 30 else 0)

/-- Block loop of VisualLayoutStrategy.extract on one page: prev is the
previous block of the sorted list whether or not it was skipped, and the
next block is peeked from the remainder; candidates scoring at least 40
are kept, with the call-to-action sub-phrase extracted when present. -/
def scanVisualBlocks (nfkc : Str → Str) (bodySize : ℤ) (pageWidth : ℚ)
    (pageNum : ℕ) (prevB : Option Block) :
    List Block → Except RunErr (List Heading)
  | [] => .ok []
  | b :: bs =>
    if b.btype ≠ 0 || b.lines.isEmpty then
      scanVisualBlocks nfkc bodySize pageWidth pageNum (some b) bs
    else
      let t := cleanText nfkc (blockJoined b)
      if t.isEmpty || t.length < 4 then
        scanVisualBlocks nfkc bodySize pageWidth pageNum (some b) bs
      else
        match firstSpan b with
        | none => .error .indexError
        | some fs =>
          let size := pyRound fs.size
          match scanVisualBlocks nfkc bodySize pageWidth pageNum (some b) bs with
          | .error e => .error e
          | .ok rest =>
            .ok (if vScore bodySize pageWidth b.bbox prevB bs.head? size t ≥ 40 then
                   (match ctaSearch t with
                    | some g =>
                      Heading.mk (pyStrip g) pageNum (size, isBoldFont fs.font) b.bbox
                    | none =>
                      Heading.mk t pageNum (size, isBoldFont fs.font) b.bbox) :: rest
                 else rest)

/-- Page loop of VisualLayoutStrategy.extract. -/
def visualFindPages (nfkc : Str → Str) (bodySize : ℤ) :
    ℕ → List Page → Except RunErr (List Heading)
  | _, [] => .ok []
  | n, p :: ps =>
    match scanVisualBlocks nfkc bodySize p.width n none (sortBlocksByY p.blocks) with
    | .error e => .error e
    | .ok hs =>
      match visualFindPages nfkc bodySize (n + 1) ps with
      | .error e => .error e
      | .ok rest => .ok (hs ++ rest)

/-- VisualLayoutStrategy.extract: no title, scored blocks per page in
sorted order, structured outline. -/
def visualExtract (nfkc : Str → Str) (doc : Document) :
    Except RunErr ExtractionResult :=
  match visualFindPages nfkc (dominantFontSize doc) 0 doc.pages with
  | .error e => .error e
  | .ok hs => .ok (ExtractionResult.mk [] (structureHeadings hs))

/-
StrategySelector: PDFOutlineExtractor._get_strategy, and the batch driver
main() from src/main.py.
-/

/-- The closed set of extraction strategies. -/
inductive StratKind where
  | tocStrat
  | formStrat
  | visualStrat
  | heuristicStrat
deriving DecidableEq, Repr

/-- Total word count sum(len(p.get_text("words")) for p in self.doc). -/
def totalWords (doc : Document) : ℕ :=
  (doc.pages.map (fun p => p.words.length)).sum

/-- PDFOutlineExtractor._get_strategy: zero pages, then a TOC that is
nonempty and longer than 5 entries, then the form phrases in the lowered
first-page text, then short low-word documents, else the heuristic
strategy. -/
def getStrategy (doc : Document) : StratKind :=
  match doc.pages with
  | [] => .heuristicStrat
  | p :: _ =>
    if !doc.toc.isEmpty && doc.toc.length > 5 then .tocStrat
    else
      let fpt := toLowerStr p.text
      if strContains fpt ("application form".toList) ||
         strContains fpt ("grant of".toList) then .formStrat
      else if doc.pages.length ≤ 2 && totalWords doc < 800 then .visualStrat
      else .heuristicStrat

/-- Modelled from the claim wording of the strategy selector: first-match
decision with the TOC condition stated as "more than 5 entries" alone. -/
def getStrategyClaim (doc : Document) : StratKind :=
  if doc.pages.length = 0 then .heuristicStrat
  else if doc.toc.length > 5 then .tocStrat
  else if (doc.pages.head?.elim false
            (fun p =>
              strContains (toLowerStr p.text) ("application form".toList) ||
              strContains (toLowerStr p.text) ("grant of".toList))) then .formStrat
  else if doc.pages.length ≤ 2 && totalWords doc < 800 then .visualStrat
  else .heuristicStrat

/-- PDFOutlineExtractor.extract: dispatch on the selected strategy. -/
def extractorExtract (nfkc : Str → Str) (doc : Document) :
    Except RunErr ExtractionResult :=
  match getStrategy doc with
  | .tocStrat => .ok (tocExtract nfkc doc)
  | .formStrat => .ok (formExtract nfkc doc)
  | .visualStrat => visualExtract nfkc doc
  | .heuristicStrat => heurExtract nfkc doc

/-- Failure kinds of the per-document try of main(): a fitz.FileDataError,
a MemoryError, or any other exception while opening the document. -/
inductive PdfError where
  | fileData
  | memoryError
  | otherError
deriving DecidableEq, Repr

/-- The default record {"title": "", "outline": []} of main(). -/
def emptyResult : ExtractionResult :=
  ExtractionResult.mk [] []

/-- Output trimming of main(): a truthy title is stripped, and every
outline item text is stripped. -/
def trimResult (r : ExtractionResult) : ExtractionResult :=
  ExtractionResult.mk
    (if !r.title.isEmpty then pyStrip r.title else r.title)
    (r.outline.map (fun it => { it with text := pyStrip it.text }))

/-- Per-document body of the main() loop: result starts as the default
empty record, replaced and trimmed only when opening and extraction both
succeed; every exception path keeps the default. -/
def processDocument (nfkc : Str → Str) (inp : Except PdfError Document) :
    ExtractionResult :=
  match inp with
  | .error _ => emptyResult
  | .ok doc =>
    match extractorExtract nfkc doc with
    | .error _ => emptyResult
    | .ok r => trimResult r

/-- The batch loop of main(): one output record per input document. -/
def runBatch (nfkc : Str → Str) (inputs : List (Except PdfError Document)) :
    List ExtractionResult :=
  inputs.map (processDocument nfkc)

/-
Concrete documents used by the scenario claims.
-/

/-- Body block of the heuristic scenario page: size-11 regular text. -/
def bodyBlockB : Block :=
  Block.mk 0 (50, 100, 300, 120)
    [Line.mk [Span.mk ("plain body text for sizing.".toList) 11 ("Regular".toList)]]

/-- Heading block of the heuristic scenario page: bold size-18 text
"3.2 Methodology" inside the allowed vertical band. -/
def headBlockB : Block :=
  Block.mk 0 (50, 200, 300, 220)
    [Line.mk [Span.mk ("3.2 Methodology".toList) 18 ("Times-Bold".toList)]]

/-- Page of the heuristic scenario. -/
def pageB : Page :=
  Page.mk 600 800 [bodyBlockB, headBlockB] [] []

/-- One-page document of the heuristic scenario (body size 11). -/
def docB : Document :=
  Document.mk [pageB] []

/-- The candidate produced from the heading block of docB. -/
def headingB : Heading :=
  Heading.mk ("3.2 Methodology".toList) 0 (18, true) (50, 200, 300, 220)

/-- Call-to-action block of the visual scenario page: centered all-caps
size-24 text "JOIN US!". -/
def ctaBlockC : Block :=
  Block.mk 0 (250, 40, 350, 60)
    [Line.mk [Span.mk ("JOIN US!".toList) 24 ("Helvetica-Bold".toList)]]

/-- Body block of the visual scenario page: off-center size-12 paragraph. -/
def bodyBlockC : Block :=
  Block.mk 0 (10, 200, 200, 400)
    [Line.mk [Span.mk
      ("this flyer invites everyone to a community event with games food and music.".toList)
      12 ("Regular".toList)]]

/-- Page of the visual scenario, carrying fifty backend word tokens. -/
def pageC : Page :=
  Page.mk 600 800 [ctaBlockC, bodyBlockC]
    ("join us flyer".toList) (List.replicate 50 ("w".toList))

/-- One-page fifty-word document of the visual scenario (body size 12). -/
def docC : Document :=
  Document.mk [pageC] []

/-
Congruence lemmas: the extraction passes consult the external normalizer
only through cleanText applied to the joined block texts (or the
leader-stripped TOC titles), so two normalizers agreeing there give equal
results.  These reduce the scenario claims to closed computations.
-/

theorem scanHeurBlocks_congr (n1 n2 : Str → Str) (bodySize : ℤ) (ph : ℚ)
    (pn : ℕ) (bs : List Block)
    (h : ∀ b ∈ bs, cleanText n1 (blockJoined b) = cleanText n2 (blockJoined b)) :
    scanHeurBlocks n1 bodySize ph pn bs = scanHeurBlocks n2 bodySize ph pn bs := by
  induction bs with
  | nil => rfl
  | cons b rest ih =>
    have hb := h b (List.mem_cons_self b rest)
    have hrest := fun x hx => h x (List.mem_cons_of_mem b hx)
    simp only [scanHeurBlocks, hb, ih hrest]

theorem heurFindPages_congr (n1 n2 : Str → Str) (bodySize : ℤ) (n : ℕ)
    (ps : List Page)
    (h : ∀ p ∈ ps, ∀ b ∈ p.blocks,
      cleanText n1 (blockJoined b) = cleanText n2 (blockJoined b)) :
    heurFindPages n1 bodySize n ps = heurFindPages n2 bodySize n ps := by
  induction ps generalizing n with
  | nil => rfl
  | cons p rest ih =>
    have hp := h p (List.mem_cons_self p rest)
    have hrest := fun q hq => h q (List.mem_cons_of_mem p hq)
    simp only [heurFindPages,
      scanHeurBlocks_congr n1 n2 bodySize p.height n p.blocks hp, ih (n + 1) hrest]

theorem heurFindHeadings_congr (n1 n2 : Str → Str) (doc : Document)
    (h : ∀ p ∈ doc.pages, ∀ b ∈ p.blocks,
      cleanText n1 (blockJoined b) = cleanText n2 (blockJoined b)) :
    heurFindHeadings n1 doc = heurFindHeadings n2 doc :=
  heurFindPages_congr n1 n2 (dominantFontSize doc) 0 doc.pages h

theorem scanVisualBlocks_congr (n1 n2 : Str → Str) (bodySize : ℤ) (pw : ℚ)
    (pn : ℕ) (prevB : Option Block) (bs : List Block)
    (h : ∀ b ∈ bs, cleanText n1 (blockJoined b) = cleanText n2 (blockJoined b)) :
    scanVisualBlocks n1 bodySize pw pn prevB bs =
      scanVisualBlocks n2 bodySize pw pn prevB bs := by
  induction bs generalizing prevB with
  | nil => rfl
  | cons b rest ih =>
    have hb := h b (List.mem_cons_self b rest)
    have hrest := fun x hx => h x (List.mem_cons_of_mem b hx)
    simp only [scanVisualBlocks, hb, ih (some b) hrest]

theorem visualFindPages_congr (n1 n2 : Str → Str) (bodySize : ℤ) (n : ℕ)
    (ps : List Page)
    (h : ∀ p ∈ ps, ∀ b ∈ sortBlocksByY p.blocks,
      cleanText n1 (blockJoined b) = cleanText n2 (blockJoined b)) :
    visualFindPages n1 bodySize n ps = visualFindPages n2 bodySize n ps := by
  induction ps generalizing n with
  | nil => rfl
  | cons p rest ih =>
    have hp := h p (List.mem_cons_self p rest)
    have hrest := fun q hq => h q (List.mem_cons_of_mem p hq)
    simp only [visualFindPages,
      scanVisualBlocks_congr n1 n2 bodySize p.width n none (sortBlocksByY p.blocks) hp,
      ih (n + 1) hrest]

theorem visualExtract_congr (n1 n2 : Str → Str) (doc : Document)
    (h : ∀ p ∈ doc.pages, ∀ b ∈ sortBlocksByY p.blocks,
      cleanText n1 (blockJoined b) = cleanText n2 (blockJoined b)) :
    visualExtract n1 doc = visualExtract n2 doc := by
  simp only [visualExtract,
    visualFindPages_congr n1 n2 (dominantFontSize doc) 0 doc.pages h]

theorem processTocEntry_congr (n1 n2 : Str → Str) (e : TocEntry)
    (h : cleanText n1 (pySubLeader e.title) = cleanText n2 (pySubLeader e.title)) :
    processTocEntry n1 e = processTocEntry n2 e := by
  simp only [processTocEntry, h]

theorem processToc_congr (n1 n2 : Str → Str) (toc : List TocEntry)
    (h : ∀ e ∈ toc,
      cleanText n1 (pySubLeader e.title) = cleanText n2 (pySubLeader e.title)) :
    processToc n1 toc = processToc n2 toc := by
  unfold processToc
  congr 1
  induction toc with
  | nil => rfl
  | cons e rest ih =>
    have he := h e (List.mem_cons_self e rest)
    have hrest := fun x hx => h x (List.mem_cons_of_mem e hx)
    simp only [List.flatMap_cons, processTocEntry_congr n1 n2 e he, ih hrest]

/-- Agreement of cleanText with the identity normalizer on a fixed point
of the external normalizer. -/
theorem cleanText_eq_id_of_fix (nfkc : Str → Str) (s : Str) (h : nfkc s = s) :
    cleanText nfkc s = cleanText id s := by
  unfold cleanText
  rw [h]
  rfl

/-- C7.  The title-extraction fallback chain is identical across
strategies: TOCStrategy._extract_title and HeuristicStrategy._extract_title
return the same string for every document, and FormStrategy.extract uses
the heuristic title extraction unchanged with an empty outline. -/
theorem title_fallback_chain_shared (nfkc : Str → Str) (doc : Document) :
    tocExtractTitle nfkc doc = heurExtractTitle nfkc doc ∧
    formExtract nfkc doc = ExtractionResult.mk (heurExtractTitle nfkc doc) [] :=
  ⟨rfl, rfl⟩

/-- C2.  The strategy selector is the first-match-wins pure decision
function described by the specification: zero pages to Heuristic, a TOC
with more than 5 entries to TOC, the form phrases on the lowered first
page to Form, at most 2 pages with fewer than 800 words to VisualLayout,
else Heuristic. -/
theorem strategy_selector_first_match (doc : Document) :
    getStrategy doc = getStrategyClaim doc := by
  obtain ⟨pages, toc⟩ := doc
  cases pages with
  | nil => rfl
  | cons p ps =>
    simp only [getStrategy, getStrategyClaim, List.head?, Option.elim,
      List.length_cons, Nat.succ_ne_zero, if_false]
    have htoc : (!List.isEmpty toc && decide (List.length toc > 5)) =
        decide (List.length toc > 5) := by
      cases toc with
      | nil => simp
      | cons e es => simp [List.isEmpty]
    rw [htoc]
    rcases Nat.decEq (List.length toc) (List.length toc) with _ | _ <;>
      by_cases h5 : List.length toc > 5 <;> simp [h5]

/-- C8.  A zero-page document selects the heuristic strategy and extracts
the empty result: empty title and empty outline. -/
theorem zero_page_empty_result (nfkc : Str → Str) (doc : Document)
    (h : doc.pages = []) :
    getStrategy doc = .heuristicStrat ∧
    heurExtract nfkc doc = .ok (ExtractionResult.mk [] []) := by
  obtain ⟨pages, toc⟩ := doc
  simp only at h
  subst h
  exact ⟨rfl, rfl⟩

/-- Witness for C8 at the concrete empty document. -/
theorem zero_page_empty_result_witness :
    getStrategy (Document.mk [] []) = .heuristicStrat ∧
    heurExtract id (Document.mk [] []) = .ok (ExtractionResult.mk [] []) :=
  zero_page_empty_result id (Document.mk [] []) rfl

/-- C4.  Under the heuristic strategy with body size 11, the bold
size-18 in-band block "3.2 Methodology" scores
(18-11)*5 + 10 + 10 + 5 + 30 = 90, passes the threshold of 25 as the sole
candidate, and is assigned level 2 (one dot in its leading numbering). -/
theorem heuristic_scenario_score90_h2 (nfkc : Str → Str)
    (h1 : nfkc ("plain body text for sizing.".toList) =
      "plain body text for sizing.".toList)
    (h2 : nfkc ("3.2 Methodology".toList) = "3.2 Methodology".toList) :
    dominantFontSize docB = 11 ∧
    hScore 11 18 true ("3.2 Methodology".toList) = 90 ∧
    heurFindHeadings nfkc docB = .ok [headingB] ∧
    structureHeadings [headingB] =
      [OutlineItem.mk 2 ("3.2 Methodology".toList) 1] := by
  have e1 : blockJoined bodyBlockB = "plain body text for sizing.".toList := rfl
  have e2 : blockJoined headBlockB = "3.2 Methodology".toList := rfl
  have hc : heurFindHeadings nfkc docB = heurFindHeadings id docB := by
    apply heurFindHeadings_congr
    intro p hp b hb
    rw [show docB.pages = [pageB] from rfl] at hp
    rw [List.mem_singleton.mp hp,
      show pageB.blocks = [bodyBlockB, headBlockB] from rfl] at hb
    rcases List.mem_cons.mp hb with hb | hb
    · rw [hb]
      exact cleanText_eq_id_of_fix nfkc _ (by rw [e1]; exact h1)
    · rw [List.mem_singleton.mp hb]
      exact cleanText_eq_id_of_fix nfkc _ (by rw [e2]; exact h2)
  refine ⟨by with_unfolding_all rfl, by with_unfolding_all rfl, ?_,
    by with_unfolding_all rfl⟩
  rw [hc]
  with_unfolding_all rfl

/-- Witness for C4 with the identity normalizer. -/
theorem heuristic_scenario_score90_h2_witness :
    dominantFontSize docB = 11 ∧
    hScore 11 18 true ("3.2 Methodology".toList) = 90 ∧
    heurFindHeadings id docB = .ok [headingB] ∧
    structureHeadings [headingB] =
      [OutlineItem.mk 2 ("3.2 Methodology".toList) 1] :=
  heuristic_scenario_score90_h2 id rfl rfl

/-- C5.  Under the visual-layout strategy with body size 12 on the 1-page
50-word flyer, the isolated centered all-caps size-24 first block
"JOIN US!" scores 25+20+60+10+15+30 = 160, crosses the threshold of 40,
and the extracted candidate text is exactly "JOIN US!". -/
theorem visual_scenario_score160_join_us (nfkc : Str → Str)
    (h1 : nfkc ("JOIN US!".toList) = "JOIN US!".toList)
    (h2 : nfkc
        ("this flyer invites everyone to a community event with games food and music.".toList) =
      "this flyer invites everyone to a community event with games food and music.".toList) :
    getStrategy docC = .visualStrat ∧
    dominantFontSize docC = 12 ∧
    vScore 12 600 (250, 40, 350, 60) none (some bodyBlockC) 24
      ("JOIN US!".toList) = 160 ∧
    visualExtract nfkc docC =
      .ok (ExtractionResult.mk [] [OutlineItem.mk 1 ("JOIN US!".toList) 1]) := by
  have e1 : blockJoined ctaBlockC = "JOIN US!".toList := rfl
  have e2 : blockJoined bodyBlockC =
      "this flyer invites everyone to a community event with games food and music.".toList :=
    rfl
  have hc : visualExtract nfkc docC = visualExtract id docC := by
    apply visualExtract_congr
    intro p hp b hb
    rw [show docC.pages = [pageC] from rfl] at hp
    have hsort : sortBlocksByY pageC.blocks = [ctaBlockC, bodyBlockC] := by
      with_unfolding_all rfl
    rw [List.mem_singleton.mp hp, hsort] at hb
    rcases List.mem_cons.mp hb with hb | hb
    · rw [hb]
      exact cleanText_eq_id_of_fix nfkc _ (by rw [e1]; exact h1)
    · rw [List.mem_singleton.mp hb]
      exact cleanText_eq_id_of_fix nfkc _ (by rw [e2]; exact h2)
  refine ⟨by with_unfolding_all rfl, by with_unfolding_all rfl,
    by with_unfolding_all rfl, ?_⟩
  rw [hc]
  with_unfolding_all rfl

/-- Witness for C5 with the identity normalizer. -/
theorem visual_scenario_score160_join_us_witness :
    getStrategy docC = .visualStrat ∧
    dominantFontSize docC = 12 ∧
    vScore 12 600 (250, 40, 350, 60) none (some bodyBlockC) 24
      ("JOIN US!".toList) = 160 ∧
    visualExtract id docC =
      .ok (ExtractionResult.mk [] [OutlineItem.mk 1 ("JOIN US!".toList) 1]) :=
  visual_scenario_score160_join_us id rfl rfl

/-
Invariants of the outline structurer (claim C1).
-/

/-- Deduplication key of an outline item. -/
def itemKey (it : OutlineItem) : Str × ℕ :=
  (it.text, it.page)

theorem postProcessAux_keys (last : ℕ) (l : List OutlineItem) :
    (postProcessAux last l).map itemKey = l.map itemKey := by
  induction l generalizing last with
  | nil => rfl
  | cons x xs ih => simp only [postProcessAux, List.map_cons, ih, itemKey]

theorem postProcessOutline_keys (l : List OutlineItem) :
    (postProcessOutline l).map itemKey = l.map itemKey := by
  cases l with
  | nil => rfl
  | cons x xs => simp only [postProcessOutline, List.map_cons, postProcessAux_keys]

theorem dedupItems_nodup (l : List OutlineItem) :
    ∀ seen : List (Str × ℕ),
      ((dedupItems l seen).map itemKey).Nodup ∧
      ∀ k ∈ (dedupItems l seen).map itemKey, k ∉ seen := by
  induction l with
  | nil => intro seen; simp [dedupItems]
  | cons x xs ih =>
    intro seen
    by_cases hseen : (x.text, x.page) ∈ seen
    · obtain ⟨h1, h2⟩ := ih seen
      simp only [dedupItems, if_pos hseen]
      exact ⟨h1, h2⟩
    · obtain ⟨h1, h2⟩ := ih ((x.text, x.page) :: seen)
      simp only [dedupItems, if_neg hseen]
      refine ⟨?_, ?_⟩
      · simp only [List.map_cons, List.nodup_cons]
        refine ⟨fun hmem => ?_, h1⟩
        exact (h2 _ hmem) (List.mem_cons_self _ _)
      · intro k hk
        simp only [List.map_cons, List.mem_cons] at hk
        rcases hk with hk | hk
        · rw [hk]
          exact hseen
        · exact fun hc => (h2 k hk) (List.mem_cons_of_mem _ hc)

/-- Adjacent-level relation of the hierarchy-correction invariant. -/
def levelStep (a b : OutlineItem) : Prop :=
  b.level ≤ a.level + 1

theorem postProcessAux_chain (l : List OutlineItem) :
    ∀ last : ℕ,
      List.Chain' levelStep (postProcessAux last l) ∧
      ∀ y ∈ (postProcessAux last l).head?, y.level ≤ last + 1 := by
  induction l with
  | nil => intro last; simp [postProcessAux]
  | cons x xs ih =>
    intro last
    obtain ⟨hch, hhd⟩ := ih (if x.level > last + 1 then last + 1 else x.level)
    constructor
    · simp only [postProcessAux]
      refine List.Chain'.cons' hch ?_
      intro y hy
      have hy' := hhd y hy
      simp only [levelStep]
      by_cases hgt : x.level > last + 1
      · simp only [if_pos hgt] at hy' ⊢
        omega
      · simp only [if_neg hgt] at hy' ⊢
        omega
    · intro y hy
      simp only [postProcessAux, List.head?_cons, Option.mem_def,
        Option.some.injEq] at hy
      rw [← hy]
      by_cases hgt : x.level > last + 1
      · simp only [if_pos hgt]
        omega
      · simp only [if_neg hgt]
        omega

theorem postProcessOutline_chain (l : List OutlineItem) :
    List.Chain' levelStep (postProcessOutline l) := by
  cases l with
  | nil => simp [postProcessOutline]
  | cons x xs =>
    simp only [postProcessOutline]
    obtain ⟨hch, hhd⟩ := postProcessAux_chain xs x.level
    exact List.Chain'.cons' hch (fun y hy => hhd y hy)

theorem structureHeadings_chain (hs : List Heading) :
    List.Chain' levelStep (structureHeadings hs) := by
  unfold structureHeadings
  split
  · simp
  · exact postProcessOutline_chain _

theorem structureHeadings_nodup (hs : List Heading) :
    ((structureHeadings hs).map itemKey).Nodup := by
  unfold structureHeadings
  split
  · simp
  · rw [postProcessOutline_keys]
    exact (dedupItems_nodup _ []).1

/-- C1.  Every outline produced by the structurer (level assignment, then
deduplication, then hierarchy correction) has no two items sharing the
same (text, page) pair, and the numeric level of each item exceeds the
previous item's level by at most one. -/
theorem structurer_invariants (hs : List Heading) :
    ((structureHeadings hs).map itemKey).Nodup ∧
    ∀ (i : ℕ) (hi : i + 1 < (structureHeadings hs).length),
      ((structureHeadings hs).get ⟨i + 1, hi⟩).level ≤
        ((structureHeadings hs).get ⟨i, Nat.lt_of_succ_lt hi⟩).level + 1 := by
  refine ⟨structureHeadings_nodup hs, ?_⟩
  intro i hi
  exact List.chain'_iff_get.mp (structureHeadings_chain hs) i (by omega)

/-- Two-heading input exercising the structurer invariants. -/
def headingsW : List Heading :=
  [Heading.mk ("A".toList) 0 (12, true) (0, 0, 10, 10),
   Heading.mk ("B".toList) 0 (11, false) (0, 20, 10, 30)]

theorem structureHeadings_headingsW_length :
    (structureHeadings headingsW).length = 2 := by
  with_unfolding_all rfl

/-- Witness for C1 on a two-heading input whose output has two items. -/
theorem structurer_invariants_witness :
    ((structureHeadings headingsW).map itemKey).Nodup ∧
    ((structureHeadings headingsW).get
        ⟨1, by rw [structureHeadings_headingsW_length]; omega⟩).level ≤
      ((structureHeadings headingsW).get
        ⟨0, by rw [structureHeadings_headingsW_length]; omega⟩).level + 1 := by
  refine ⟨(structurer_invariants headingsW).1, ?_⟩
  exact (structurer_invariants headingsW).2 0
    (by rw [structureHeadings_headingsW_length]; omega)

/-- TOC entry whose cleaned text embeds two numbered sub-headings. -/
def tocEntry3 : TocEntry :=
  TocEntry.mk 1 ("1.1 Intro 2.2 Scope".toList) 0

/-- C3.  Splitting a kept TOC entry that embeds two numbered sub-headings
produces four outline items, not two: the capturing group inside the
lookahead (?=\d+(\.\d+)+\s) makes re.split interleave the captured ".1"
and ".2" fragments with the segments, and the loop keeps them because
their strip is nonempty.  The claim "exactly one item per sub-heading
segment, with no additional items" therefore fails on the code. -/
theorem toc_split_inserts_captured_fragments (nfkc : Str → Str)
    (hfix : nfkc ("1.1 Intro 2.2 Scope".toList) = "1.1 Intro 2.2 Scope".toList) :
    processToc nfkc [tocEntry3] =
      [OutlineItem.mk 1 (".1".toList) 1,
       OutlineItem.mk 1 ("1.1 Intro".toList) 1,
       OutlineItem.mk 1 (".2".toList) 1,
       OutlineItem.mk 1 ("2.2 Scope".toList) 1] := by
  have e : pySubLeader tocEntry3.title = "1.1 Intro 2.2 Scope".toList := by
    with_unfolding_all rfl
  have hc : processToc nfkc [tocEntry3] = processToc id [tocEntry3] := by
    apply processToc_congr
    intro entry hentry
    rw [List.mem_singleton.mp hentry]
    exact cleanText_eq_id_of_fix nfkc _ (by rw [e]; exact hfix)
  rw [hc]
  with_unfolding_all rfl

/-- Witness for C3 with the identity normalizer. -/
theorem toc_split_inserts_captured_fragments_witness :
    processToc id [tocEntry3] =
      [OutlineItem.mk 1 (".1".toList) 1,
       OutlineItem.mk 1 ("1.1 Intro".toList) 1,
       OutlineItem.mk 1 (".2".toList) 1,
       OutlineItem.mk 1 ("2.2 Scope".toList) 1] :=
  toc_split_inserts_captured_fragments id rfl

/-
Partiality of the heuristic heading scan (claim C10).
-/

/-- Precondition under which the heading scans are total: every text block
that still has lines exposes at least one span in its first line. -/
def headScanSafe (doc : Document) : Prop :=
  ∀ p ∈ doc.pages, ∀ b ∈ p.blocks, b.btype = 0 → b.lines ≠ [] → firstSpan b ≠ none

instance : DecidablePred headScanSafe := by
  unfold headScanSafe
  infer_instance

theorem scanHeurBlocks_total (nfkc : Str → Str) (bodySize : ℤ) (ph : ℚ)
    (pn : ℕ) (bs : List Block)
    (h : ∀ b ∈ bs, b.btype = 0 → b.lines ≠ [] → firstSpan b ≠ none) :
    ∃ hs, scanHeurBlocks nfkc bodySize ph pn bs = .ok hs := by
  induction bs with
  | nil => exact ⟨[], rfl⟩
  | cons b rest ih =>
    obtain ⟨hs, hok⟩ := ih (fun x hx => h x (List.mem_cons_of_mem b hx))
    have hb := h b (List.mem_cons_self b rest)
    simp only [scanHeurBlocks]
    split
    · exact ⟨hs, hok⟩
    · next hkeep =>
      split
      · exact ⟨hs, hok⟩
      · split
        · exact ⟨hs, hok⟩
        · have hfs : firstSpan b ≠ none := by
            simp only [Bool.or_eq_true, decide_eq_true_eq, not_or,
              List.isEmpty_eq_true] at hkeep
            exact hb (not_not.mp hkeep.1) hkeep.2
          cases hfsv : firstSpan b with
          | none => exact absurd hfsv hfs
          | some fs =>
            rw [hok]
            exact ⟨_, rfl⟩

theorem heurFindPages_total (nfkc : Str → Str) (bodySize : ℤ)
    (ps : List Page)
    (h : ∀ p ∈ ps, ∀ b ∈ p.blocks, b.btype = 0 → b.lines ≠ [] → firstSpan b ≠ none) :
    ∀ n, ∃ hs, heurFindPages nfkc bodySize n ps = .ok hs := by
  induction ps with
  | nil => exact fun n => ⟨[], rfl⟩
  | cons p rest ih =>
    intro n
    obtain ⟨hs1, hok1⟩ :=
      scanHeurBlocks_total nfkc bodySize p.height n p.blocks
        (h p (List.mem_cons_self p rest))
    obtain ⟨hs2, hok2⟩ := ih (fun q hq => h q (List.mem_cons_of_mem p hq)) (n + 1)
    refine ⟨hs1 ++ hs2, ?_⟩
    simp only [heurFindPages, hok1, hok2]

/-- Block whose first line has no spans while the second line carries the
text "Hello": the cleaned block text is nonempty, so the scan reaches the
unguarded b['lines'][0]['spans'][0]. -/
def badBlock10 : Block :=
  Block.mk 0 (50, 100, 200, 120)
    [Line.mk [], Line.mk [Span.mk ("Hello".toList) 12 ("F".toList)]]

/-- One-page document containing only badBlock10. -/
def badDoc10 : Document :=
  Document.mk [Page.mk 600 800 [badBlock10] [] []] []

/-- Well-formed one-page document for the totality side. -/
def goodDoc10 : Document :=
  Document.mk
    [Page.mk 600 800
      [Block.mk 0 (50, 100, 200, 120)
        [Line.mk [Span.mk ("Hi there".toList) 12 ("F".toList)]]] [] []] []

/-- C10.  The heuristic heading scan is total whenever every text block
with lines exposes a span in its first line, and it fails with an
IndexError on a block whose first line has an empty span list while a
later line contributes nonempty text. -/
theorem heur_scan_first_span_partial_safety (nfkc : Str → Str)
    (hfix : nfkc ("Hello".toList) = "Hello".toList) :
    (∀ doc : Document, headScanSafe doc →
      ∃ hs, heurFindHeadings nfkc doc = .ok hs) ∧
    heurFindHeadings nfkc badDoc10 = .error .indexError := by
  constructor
  · intro doc hsafe
    exact heurFindPages_total nfkc (dominantFontSize doc) doc.pages hsafe 0
  · have e : blockJoined badBlock10 = "Hello".toList := rfl
    have hc : heurFindHeadings nfkc badDoc10 = heurFindHeadings id badDoc10 := by
      apply heurFindHeadings_congr
      intro p hp b hb
      rw [show badDoc10.pages = [Page.mk 600 800 [badBlock10] [] []] from rfl] at hp
      rw [List.mem_singleton.mp hp] at hb
      rw [List.mem_singleton.mp hb]
      exact cleanText_eq_id_of_fix nfkc _ (by rw [e]; exact hfix)
    rw [hc]
    with_unfolding_all rfl

/-- Witness for C10: totality on goodDoc10 and the concrete failure, both
with the identity normalizer. -/
theorem heur_scan_first_span_partial_safety_witness :
    (∃ hs, heurFindHeadings id goodDoc10 = .ok hs) ∧
    heurFindHeadings id badDoc10 = .error .indexError :=
  ⟨(heur_scan_first_span_partial_safety id rfl).1 goodDoc10 (by decide),
   (heur_scan_first_span_partial_safety id rfl).2⟩

/-- C6.  The batch loop of main() yields exactly one output record per
input document; any failure while opening (decode error, memory
exhaustion, other exception) or while extracting keeps the default empty
record for that document, and since every record is computed independently
by the same per-document body, a failure never disturbs the remaining
documents. -/
theorem batch_one_record_default_on_failure (nfkc : Str → Str)
    (inputs : List (Except PdfError Document)) :
    (runBatch nfkc inputs).length = inputs.length ∧
    ∀ (i : ℕ) (hi : i < inputs.length),
      (runBatch nfkc inputs).get ⟨i, by simpa [runBatch] using hi⟩ =
        processDocument nfkc (inputs.get ⟨i, hi⟩) ∧
      (((∃ e, inputs.get ⟨i, hi⟩ = .error e) ∨
        (∃ doc err, inputs.get ⟨i, hi⟩ = .ok doc ∧
          extractorExtract nfkc doc = .error err)) →
        (runBatch nfkc inputs).get ⟨i, by simpa [runBatch] using hi⟩ =
          emptyResult) := by
  refine ⟨by simp [runBatch], ?_⟩
  intro i hi
  have hget : (runBatch nfkc inputs).get ⟨i, by simpa [runBatch] using hi⟩ =
      processDocument nfkc (inputs.get ⟨i, hi⟩) := by
    simp [runBatch, List.get_eq_getElem, List.getElem_map]
  refine ⟨hget, fun hfail => ?_⟩
  rw [hget]
  rcases hfail with ⟨e, herr⟩ | ⟨doc, err, hok, herr⟩
  · rw [herr]
    rfl
  · rw [hok]
    simp only [processDocument, herr]

/-- Witness for C6 on a batch of one unreadable document. -/
theorem batch_one_record_default_on_failure_witness :
    (runBatch id [Except.error PdfError.fileData]).length = 1 ∧
    (runBatch id [Except.error PdfError.fileData]).get ⟨0, by decide⟩ =
      emptyResult := by
  constructor
  · rw [(batch_one_record_default_on_failure id [Except.error PdfError.fileData]).1]
    rfl
  · exact ((batch_one_record_default_on_failure id
      [Except.error PdfError.fileData]).2 0 (by decide)).2
      (Or.inl ⟨PdfError.fileData, rfl⟩)

/-
Idempotence of the text normalizer (claim C9).  The combinatorial core:
the image of subWs is whitespace-normal (every whitespace character is a
single space never followed by whitespace), subWs is the identity on
whitespace-normal strings, and subWs preserves non-whitespace first and
last characters, so that stripping is also the identity on the image.
-/

/-- Whitespace-normal form: every whitespace character is a plain space
and no two adjacent characters are both whitespace. -/
def goodWs (l : Str) : Prop :=
  (∀ c ∈ l, pyIsSpace c = true → c = ' ') ∧
  List.Chain' (fun a b => ¬(pyIsSpace a = true ∧ pyIsSpace b = true)) l

theorem dropWhile_head?_not (p : Char → Bool) :
    ∀ (l : Str) (c : Char), (l.dropWhile p).head? = some c → p c = false := by
  intro l
  induction l with
  | nil => intro c h; simp [List.dropWhile] at h
  | cons a as ih =>
    intro c h
    by_cases hpa : p a
    · rw [List.dropWhile_cons_of_pos hpa] at h
      exact ih c h
    · rw [List.dropWhile_cons_of_neg hpa] at h
      simp only [List.head?_cons, Option.some.injEq] at h
      rw [← h]
      exact Bool.eq_false_iff.mpr hpa

theorem subWs_cons_of_neg (c : Char) (cs : Str) (h : pyIsSpace c = false) :
    subWs (c :: cs) = c :: subWs cs := by
  simp [subWs, h]

theorem subWs_cons_of_pos (c : Char) (cs : Str) (h : pyIsSpace c = true) :
    subWs (c :: cs) = ' ' :: subWs (cs.dropWhile pyIsSpace) := by
  simp [subWs, h]

theorem subWs_ne_nil (l : Str) (h : l ≠ []) : subWs l ≠ [] := by
  cases l with
  | nil => exact absurd rfl h
  | cons c cs =>
    by_cases hws : pyIsSpace c
    · rw [subWs_cons_of_pos c cs hws]
      exact List.cons_ne_nil _ _
    · rw [subWs_cons_of_neg c cs (Bool.eq_false_iff.mpr hws)]
      exact List.cons_ne_nil _ _

theorem subWs_head? (l : Str) (c : Char) (h : l.head? = some c)
    (hc : pyIsSpace c = false) : (subWs l).head? = some c := by
  cases l with
  | nil => simp at h
  | cons a as =>
    simp only [List.head?_cons, Option.some.injEq] at h
    subst h
    rw [subWs_cons_of_neg _ _ hc]
    rfl

theorem subWs_goodWs : ∀ (n : ℕ) (l : Str), l.length ≤ n → goodWs (subWs l) := by
  intro n
  induction n with
  | zero =>
    intro l hl
    rw [List.length_eq_zero.mp (Nat.le_zero.mp hl)]
    exact ⟨by simp [subWs], by simp [subWs]⟩
  | succ n ih =>
    intro l hl
    cases l with
    | nil => exact ⟨by simp [subWs], by simp [subWs]⟩
    | cons c cs =>
      simp only [List.length_cons, Nat.add_le_add_iff_right] at hl
      by_cases hws : pyIsSpace c
      · rw [subWs_cons_of_pos c cs hws]
        have hds : (cs.dropWhile pyIsSpace).length ≤ n :=
          le_trans (length_dropWhileLe pyIsSpace cs) hl
        obtain ⟨hall, hch⟩ := ih (cs.dropWhile pyIsSpace) hds
        refine ⟨?_, ?_⟩
        · intro x hx hwx
          rcases List.mem_cons.mp hx with hx | hx
          · exact hx
          · exact hall x hx hwx
        · refine List.Chain'.cons' hch ?_
          intro y hy
          intro hcontra
          cases hhd : (cs.dropWhile pyIsSpace).head? with
          | none =>
            rw [List.head?_eq_none_iff.mp hhd] at hy
            simp [subWs] at hy
          | some d =>
            have hd : pyIsSpace d = false := dropWhile_head?_not pyIsSpace cs d hhd
            have := subWs_head? (cs.dropWhile pyIsSpace) d hhd hd
            rw [this] at hy
            simp only [Option.mem_def, Option.some.injEq] at hy
            rw [hy] at hd
            rw [hcontra.2] at hd
            exact absurd hd (by simp)
      · have hcf : pyIsSpace c = false := Bool.eq_false_iff.mpr hws
        rw [subWs_cons_of_neg c cs hcf]
        obtain ⟨hall, hch⟩ := ih cs hl
        refine ⟨?_, ?_⟩
        · intro x hx hwx
          rcases List.mem_cons.mp hx with hx | hx
          · rw [hx] at hwx
            rw [hwx] at hcf
            exact absurd hcf (by simp)
          · exact hall x hx hwx
        · refine List.Chain'.cons' hch ?_
          intro y _ hcontra
          rw [hcontra.1] at hcf
          exact absurd hcf (by simp)

theorem subWs_eq_self_of_goodWs :
    ∀ (n : ℕ) (l : Str), l.length ≤ n → goodWs l → subWs l = l := by
  intro n
  induction n with
  | zero =>
    intro l hl _
    rw [List.length_eq_zero.mp (Nat.le_zero.mp hl)]
    simp [subWs]
  | succ n ih =>
    intro l hl hg
    cases l with
    | nil => simp [subWs]
    | cons c cs =>
      simp only [List.length_cons, Nat.add_le_add_iff_right] at hl
      have hgcs : goodWs cs := ⟨fun x hx => hg.1 x (List.mem_cons_of_mem c hx),
        List.Chain'.tail hg.2⟩
      by_cases hws : pyIsSpace c
      · have hcsp : c = ' ' := hg.1 c (List.mem_cons_self c cs) hws
        rw [subWs_cons_of_pos c cs hws]
        have hdrop : cs.dropWhile pyIsSpace = cs := by
          cases cs with
          | nil => rfl
          | cons d ds =>
            have hrel := List.chain'_cons'.mp hg.2
            have hnd : ¬(pyIsSpace c = true ∧ pyIsSpace d = true) :=
              hrel.1 d rfl
            have hdf : ¬ pyIsSpace d = true := fun hdt => hnd ⟨hws, hdt⟩
            exact List.dropWhile_cons_of_neg hdf
        rw [hdrop, ih cs hl hgcs, hcsp]
      · rw [subWs_cons_of_neg c cs (Bool.eq_false_iff.mpr hws)]
        rw [ih cs hl hgcs]

theorem getLast?_cons_of_ne_nil (x : Char) (l : Str) (h : l ≠ []) :
    (x :: l).getLast? = l.getLast? := by
  cases l with
  | nil => exact absurd rfl h
  | cons y ys => exact List.getLast?_cons_cons

theorem getLast?_dropWhile (p : Char → Bool) :
    ∀ (l : Str) (c : Char), l.getLast? = some c → p c = false →
      l.dropWhile p ≠ [] ∧ (l.dropWhile p).getLast? = some c := by
  intro l
  induction l with
  | nil => intro c h _; simp at h
  | cons a as ih =>
    intro c h hc
    by_cases hpa : p a
    · rw [List.dropWhile_cons_of_pos hpa]
      cases as with
      | nil =>
        simp only [List.getLast?_singleton, Option.some.injEq] at h
        rw [h] at hpa
        rw [hc] at hpa
        exact absurd hpa (by simp)
      | cons b bs =>
        rw [List.getLast?_cons_cons] at h
        exact ih c h hc
    · rw [List.dropWhile_cons_of_neg hpa]
      exact ⟨List.cons_ne_nil a as, h⟩

theorem subWs_getLast? :
    ∀ (n : ℕ) (l : Str) (c : Char), l.length ≤ n → l.getLast? = some c →
      pyIsSpace c = false → (subWs l).getLast? = some c := by
  intro n
  induction n with
  | zero =>
    intro l c hl h _
    rw [List.length_eq_zero.mp (Nat.le_zero.mp hl)] at h
    simp at h
  | succ n ih =>
    intro l c hl h hc
    cases l with
    | nil => simp at h
    | cons c0 cs =>
      simp only [List.length_cons, Nat.add_le_add_iff_right] at hl
      cases cs with
      | nil =>
        simp only [List.getLast?_singleton, Option.some.injEq] at h
        subst h
        rw [subWs_cons_of_neg _ _ hc]
        simp [subWs]
      | cons d ds =>
        rw [List.getLast?_cons_cons] at h
        by_cases hws : pyIsSpace c0
        · rw [subWs_cons_of_pos _ _ hws]
          obtain ⟨hne, hl2⟩ := getLast?_dropWhile pyIsSpace (d :: ds) c h hc
          have hlen : ((d :: ds).dropWhile pyIsSpace).length ≤ n :=
            le_trans (length_dropWhileLe pyIsSpace (d :: ds)) hl
          have hsub := ih _ c hlen hl2 hc
          rw [getLast?_cons_of_ne_nil ' ' _ (subWs_ne_nil _ hne)]
          exact hsub
        · rw [subWs_cons_of_neg _ _ (Bool.eq_false_iff.mpr hws)]
          have hsub := ih (d :: ds) c hl h hc
          rw [getLast?_cons_of_ne_nil c0 _ (subWs_ne_nil _ (List.cons_ne_nil d ds))]
          exact hsub

theorem pyStrip_head?_not (l : Str) (c : Char)
    (h : (pyStrip l).head? = some c) : pyIsSpace c = false := by
  obtain ⟨t, ht⟩ := List.rdropWhile_prefix pyIsSpace (l.dropWhile pyIsSpace)
  have hhd : (l.dropWhile pyIsSpace).head? = some c := by
    rw [← ht]
    cases hpl : pyStrip l with
    | nil => rw [hpl] at h; simp at h
    | cons a as =>
      have h' : a = c := by rw [hpl] at h; simpa using h
      have : (l.dropWhile pyIsSpace).rdropWhile pyIsSpace = a :: as := hpl
      rw [this]
      simp [h']
  exact dropWhile_head?_not pyIsSpace l c hhd

theorem pyStrip_getLast?_not (l : Str) (c : Char)
    (h : (pyStrip l).getLast? = some c) : pyIsSpace c = false := by
  have hne : (l.dropWhile pyIsSpace).rdropWhile pyIsSpace ≠ [] := by
    intro h0
    have : pyStrip l = [] := h0
    rw [this] at h
    simp at h
  have hlast := List.rdropWhile_last_not pyIsSpace (l.dropWhile pyIsSpace) hne
  have hg : ((l.dropWhile pyIsSpace).rdropWhile pyIsSpace).getLast hne = c := by
    have heq := List.getLast?_eq_getLast_of_ne_nil
      (l := (l.dropWhile pyIsSpace).rdropWhile pyIsSpace) hne
    have h' : ((l.dropWhile pyIsSpace).rdropWhile pyIsSpace).getLast? = some c := h
    rw [heq] at h'
    simpa using h'
  rw [hg] at hlast
  exact Bool.eq_false_iff.mpr hlast

theorem pyStrip_eq_self (l : Str)
    (hh : ∀ c, l.head? = some c → pyIsSpace c = false)
    (hl : ∀ c, l.getLast? = some c → pyIsSpace c = false) : pyStrip l = l := by
  have h1 : l.dropWhile pyIsSpace = l := by
    cases l with
    | nil => rfl
    | cons a as =>
      have := hh a rfl
      exact List.dropWhile_cons_of_neg (by simp [this])
  show (l.dropWhile pyIsSpace).rdropWhile pyIsSpace = l
  rw [h1]
  rw [List.rdropWhile_eq_self_iff]
  intro hne
  have heq := List.getLast?_eq_getLast_of_ne_nil hne
  have hlast := hl (l.getLast hne) heq
  simp [hlast]

theorem stripSubWs_invariant (t : Str) :
    pyStrip (subWs (pyStrip t)) = subWs (pyStrip t) ∧
    subWs (subWs (pyStrip t)) = subWs (pyStrip t) := by
  constructor
  · apply pyStrip_eq_self
    · intro c hc
      cases hy : (pyStrip t).head? with
      | none =>
        rw [List.head?_eq_none_iff.mp hy] at hc
        simp [subWs] at hc
      | some d =>
        have hd := pyStrip_head?_not t d hy
        have hsub := subWs_head? (pyStrip t) d hy hd
        rw [hsub] at hc
        have : d = c := by simpa using hc
        rw [← this]
        exact hd
    · intro c hc
      cases hy : (pyStrip t).getLast? with
      | none =>
        have hnil : pyStrip t = [] := by
          cases hpt : pyStrip t with
          | nil => rfl
          | cons a as =>
            have heq := List.getLast?_eq_getLast_of_ne_nil
              (l := a :: as) (List.cons_ne_nil a as)
            rw [hpt] at hy
            rw [heq] at hy
            simp at hy
        rw [hnil] at hc
        simp [subWs] at hc
      | some d =>
        have hd := pyStrip_getLast?_not t d hy
        have hsub := subWs_getLast? (pyStrip t).length (pyStrip t) d le_rfl hy hd
        rw [hsub] at hc
        have : d = c := by simpa using hc
        rw [← this]
        exact hd
  · exact subWs_eq_self_of_goodWs (subWs (pyStrip t)).length _ le_rfl
      (subWs_goodWs (pyStrip t).length _ le_rfl)

theorem replaceLigs_not_lig (l : Str) :
    ∀ x ∈ replaceLigs l, x ≠ ligFi ∧ x ≠ ligFl := by
  intro x hx
  simp only [replaceLigs, List.mem_flatMap] at hx
  obtain ⟨c, _, hxc⟩ := hx
  unfold expandLig at hxc
  by_cases h1 : c = ligFi
  · rw [if_pos h1] at hxc
    rcases List.mem_cons.mp hxc with h | h
    · subst h; exact ⟨by decide, by decide⟩
    · rw [List.mem_singleton.mp h]; exact ⟨by decide, by decide⟩
  · rw [if_neg h1] at hxc
    by_cases h2 : c = ligFl
    · rw [if_pos h2] at hxc
      rcases List.mem_cons.mp hxc with h | h
      · subst h; exact ⟨by decide, by decide⟩
      · rw [List.mem_singleton.mp h]; exact ⟨by decide, by decide⟩
    · rw [if_neg h2] at hxc
      rw [List.mem_singleton.mp hxc]
      exact ⟨h1, h2⟩

theorem replaceLigs_eq_self (l : Str)
    (h : ∀ x ∈ l, x ≠ ligFi ∧ x ≠ ligFl) : replaceLigs l = l := by
  induction l with
  | nil => rfl
  | cons c cs ih =>
    have hc := h c (List.mem_cons_self c cs)
    have he : expandLig c = [c] := by
      unfold expandLig
      rw [if_neg hc.1, if_neg hc.2]
    simp only [replaceLigs, List.flatMap_cons, he, List.cons_append,
      List.nil_append]
    exact congrArg (c :: ·) (ih (fun x hx => h x (List.mem_cons_of_mem c hx)))

theorem mem_pyStrip (l : Str) (x : Char) (hx : x ∈ pyStrip l) : x ∈ l := by
  have h1 : List.Sublist (pyStrip l) (l.dropWhile pyIsSpace) :=
    List.IsPrefix.sublist (List.rdropWhile_prefix pyIsSpace (l.dropWhile pyIsSpace))
  exact (List.Sublist.subset (List.Sublist.trans h1 (List.dropWhile_sublist pyIsSpace))) hx

theorem mem_subWs :
    ∀ (n : ℕ) (l : Str) (x : Char), l.length ≤ n → x ∈ subWs l →
      x = ' ' ∨ x ∈ l := by
  intro n
  induction n with
  | zero =>
    intro l x hl hx
    rw [List.length_eq_zero.mp (Nat.le_zero.mp hl)] at hx
    simp [subWs] at hx
  | succ n ih =>
    intro l x hl hx
    cases l with
    | nil => simp [subWs] at hx
    | cons c cs =>
      simp only [List.length_cons, Nat.add_le_add_iff_right] at hl
      by_cases hws : pyIsSpace c
      · rw [subWs_cons_of_pos _ _ hws] at hx
        rcases List.mem_cons.mp hx with hx | hx
        · exact Or.inl hx
        · have hlen : (cs.dropWhile pyIsSpace).length ≤ n :=
            le_trans (length_dropWhileLe pyIsSpace cs) hl
          rcases ih _ x hlen hx with h | h
          · exact Or.inl h
          · exact Or.inr (List.mem_cons_of_mem c
              ((List.Sublist.subset (List.dropWhile_sublist pyIsSpace)) h))
      · rw [subWs_cons_of_neg _ _ (Bool.eq_false_iff.mpr hws)] at hx
        rcases List.mem_cons.mp hx with hx | hx
        · exact Or.inr (hx ▸ List.mem_cons_self c cs)
        · rcases ih cs x hl hx with h | h
          · exact Or.inl h
          · exact Or.inr (List.mem_cons_of_mem c h)

theorem cleanText_not_lig (nfkc : Str → Str) (s : Str) :
    ∀ x ∈ cleanText nfkc s, x ≠ ligFi ∧ x ≠ ligFl := by
  intro x hx
  unfold cleanText at hx
  by_cases hs : s = []
  · rw [if_pos hs] at hx
    simp at hx
  · rw [if_neg hs] at hx
    rcases mem_subWs (pyStrip (replaceLigs (nfkc s))).length _ x le_rfl hx with h | h
    · subst h
      exact ⟨by decide, by decide⟩
    · exact replaceLigs_not_lig _ x (mem_pyStrip _ x h)

/-- C9.  clean_text is idempotent: a second application returns the first
result unchanged, provided the external NFKC normalizer fixes the cleaned
string (which holds for real NFKC, whose image the pipeline stays in).
The ligature replacement, strip and whitespace collapse are all proven
to be the identity on the output of the first application. -/
theorem clean_text_idempotent (nfkc : Str → Str) (s : Str)
    (hfix : nfkc (cleanText nfkc s) = cleanText nfkc s) :
    cleanText nfkc (cleanText nfkc s) = cleanText nfkc s := by
  have expand : ∀ w : Str, w ≠ [] →
      cleanText nfkc w = subWs (pyStrip (replaceLigs (nfkc w))) := by
    intro w hw
    rw [cleanText, if_neg hw]
  by_cases hu0 : cleanText nfkc s = []
  · rw [hu0]
    simp [cleanText]
  · rw [expand (cleanText nfkc s) hu0, hfix,
      replaceLigs_eq_self _ (cleanText_not_lig nfkc s)]
    by_cases hs : s = []
    · exact absurd (by rw [hs]; simp [cleanText]) hu0
    · rw [expand s hs,
        (stripSubWs_invariant (replaceLigs (nfkc s))).1,
        (stripSubWs_invariant (replaceLigs (nfkc s))).2]

/-- Witness for C9 with the identity normalizer at a concrete string. -/
theorem clean_text_idempotent_witness :
    id (cleanText id ("  a \t b ".toList)) = cleanText id ("  a \t b ".toList) ∧
    cleanText id (cleanText id ("  a \t b ".toList)) =
      cleanText id ("  a \t b ".toList) :=
  ⟨rfl, clean_text_idempotent id ("  a \t b ".toList) rfl⟩
